import Mathlib

/-!
Verification of the Chord-style DHT routing core (`main.py`).

The embedding models the Python object graph as a heap: node objects are
references (`Nat`) resolved through a `World` map to their state.  Python
exceptions are surfaced as `Except PyError` results, and the unbounded
recursion of `Node.find_successor` is modelled with explicit fuel.  SHA-1
hashing (`ChordRing.hash_key`) is modelled as a parameter `sha1 : String → Nat`,
since the routing logic is independent of the digest's internals.
-/

namespace DTH

/-- Errors an embedded operation can surface.  `zeroDivisionError` and
`keyError` model the Python exceptions raised by `% 0` and by a missing dict
key; `emptyRing` and `incompleteFingerTable` are the error kinds named by the
specification (the source never raises them, which several claims probe). -/
inductive PyError where
  | zeroDivisionError
  | keyError
  | emptyRing
  | incompleteFingerTable
  deriving DecidableEq

/-- One level of a node's `finger_table` dict.  In Python,
`self.finger_table[i]` raises `KeyError` when the key `i` is absent
(`missing`); a stored `None` is falsy, so `if self.finger_table[i] and ...`
skips the slot (`noneVal`); a stored node object is always truthy (`node`). -/
inductive Slot where
  | missing
  | noneVal
  | node (r : Nat)
  deriving DecidableEq

/-- State of one Python `Node` object: its `identifier`, the keys of its
`data` dict (values are irrelevant to routing), and its `finger_table` dict.
Keys are modelled as numeric identifiers throughout, matching their use in
`in_range` comparisons. -/
structure NodeState where
  identifier : Nat
  data : List Nat
  finger_table : Nat → Slot

/-- The heap: resolves a node reference to the state of that node object. -/
abbrev World := Nat → NodeState

/-- `Node.in_range(self, target, start, end)` from the source (the `self`
argument is unused there): membership of `target` in the circular interval
from `start` (exclusive) to `end` (inclusive). -/
def Node.in_range (target start «end» : Nat) : Bool :=
  if start ≤ «end» then decide (start < target ∧ target ≤ «end»)
  else decide (start < target ∨ target ≤ «end»)

/-- The loop of `closest_preceding_node`: `for i in range(160, 0, -1)`
examines finger levels `i, i-1, ..., 1`; falling out of the loop returns
`self`.  A `missing` slot raises `KeyError`; a `None` slot is skipped by the
truthiness test before `in_range` is consulted. -/
def Node.cpnLoop (w : World) (self key : Nat) : Nat → Except PyError Nat
  | 0 => .ok self
  | i + 1 =>
    match (w self).finger_table (i + 1) with
    | .missing => .error .keyError
    | .noneVal => Node.cpnLoop w self key i
    | .node r =>
      if Node.in_range (w r).identifier (w self).identifier key then .ok r
      else Node.cpnLoop w self key i

/-- `Node.closest_preceding_node(self, key)` from the source: scan finger
levels 160 down to 1, returning the first truthy finger whose identifier is
`in_range(finger.identifier, self.identifier, key)`, else `self`. -/
def Node.closest_preceding_node (w : World) (self key : Nat) : Except PyError Nat :=
  Node.cpnLoop w self key 160

/-- `Node.find_successor(self, key)` from the source, with explicit fuel: the
Python recursion `return successor.find_successor(key)` is unbounded, so a
`none` result for every fuel value exhibits non-termination.  The base case
tests literal key membership in `self.data`. -/
def Node.find_successor_fuel (w : World) : Nat → Nat → Nat → Option (Except PyError Nat)
  | 0, _, _ => none
  | fuel + 1, self, key =>
    if key ∈ (w self).data then some (.ok self)
    else
      match Node.closest_preceding_node w self key with
      | .error e => some (.error e)
      | .ok succ => Node.find_successor_fuel w fuel succ key

/-- The binary-search loop of Python's `bisect.bisect_left`:
while `lo < hi`, probe `mid = (lo + hi) // 2` and narrow the bracket. -/
def bisect_left_loop (a : List Nat) (x : Nat) (lo hi : Nat) : Nat :=
  if _h : lo < hi then
    let mid := (lo + hi) / 2
    if a.getD mid 0 < x then bisect_left_loop a x (mid + 1) hi
    else bisect_left_loop a x lo mid
  else lo
termination_by hi - lo
decreasing_by
  all_goals omega

/-- `bisect.bisect_left(a, x)`: the insertion point for `x` in `a`. -/
def bisect_left (a : List Nat) (x : Nat) : Nat :=
  bisect_left_loop a x 0 a.length

/-- Ordering of node references by the identifier of the referenced node:
the sort key `lambda x: x.identifier` used by `ChordRing.add_node`. -/
def ChordRing.identLe (w : World) (a b : Nat) : Prop :=
  (w a).identifier ≤ (w b).identifier

instance (w : World) : DecidableRel (ChordRing.identLe w) :=
  fun a b => inferInstanceAs (Decidable ((w a).identifier ≤ (w b).identifier))

/-- `ChordRing.add_node(self, node)` from the source: append the node, then
re-sort the list by identifier.  Python's `list.sort` is a stable sort, and
a stable sort by a total-preorder key is extensionally unique, so it is
modelled by the stable `List.insertionSort`. -/
def ChordRing.add_node (w : World) (nodes : List Nat) (node : Nat) : List Nat :=
  List.insertionSort (ChordRing.identLe w) (nodes ++ [node])

/-- A sequence of `add_node` calls folded over an initial membership list. -/
def ChordRing.add_nodes (w : World) (start : List Nat) (ns : List Nat) : List Nat :=
  ns.foldl (ChordRing.add_node w) start

/-- `ChordRing.find_node(self, key)` from the source, applied to the already
hashed key: `index = bisect_left([n.identifier for n in nodes], h) % len(nodes)`
then `nodes[index]`.  When the ring is empty, Python's `% 0` raises
`ZeroDivisionError`; otherwise `index < len(nodes)`, so indexing succeeds. -/
def ChordRing.find_node (w : World) (nodes : List Nat) (hashed_key : Nat) :
    Except PyError Nat :=
  if nodes.length = 0 then .error .zeroDivisionError
  else .ok (nodes.getD (bisect_left (nodes.map fun n => (w n).identifier) hashed_key % nodes.length) 0)

/-- `ChordRing.hash_key(self, key)`: SHA-1 digest of the key as an integer,
modelled by the digest parameter `sha1`. -/
def ChordRing.hash_key (sha1 : String → Nat) (key : String) : Nat :=
  sha1 key

/-- `ChordRing.find_node(self, key)` on a string key: hash, then look up. -/
def ChordRing.find_node_key (sha1 : String → Nat) (w : World) (nodes : List Nat)
    (key : String) : Except PyError Nat :=
  ChordRing.find_node w nodes (ChordRing.hash_key sha1 key)

/-- A one-node world whose finger table points entirely at the node itself
(node `0`, identifier 5), as stabilization would leave a singleton ring. -/
def wSelfLoop : World := fun _ => ⟨5, [], fun _ => Slot.node 0⟩

/-- A world of freshly constructed nodes: every `finger_table` dict is empty
(`Node.__init__` sets `self.finger_table = {}`), every identifier is 5. -/
def wFresh : World := fun _ => ⟨5, [], fun _ => Slot.missing⟩

/-- A world whose nodes have every finger level present but set to `None`. -/
def wNoneFingers : World := fun _ => ⟨5, [], fun _ => Slot.noneVal⟩

/-- A three-node world with identifiers 10, 60, 180 (references 0, 1, 2),
the illustrative membership from the specification's scenarios. -/
def wABC : World := fun n =>
  if n = 0 then ⟨10, [], fun _ => Slot.missing⟩
  else if n = 1 then ⟨60, [], fun _ => Slot.missing⟩
  else ⟨180, [], fun _ => Slot.missing⟩

/-- Characterization of `in_range` used by several theorems below. -/
theorem in_range_iff (target start e : Nat) :
    Node.in_range target start e = true ↔
      (if start ≤ e then start < target ∧ target ≤ e
       else start < target ∨ target ≤ e) := by
  unfold Node.in_range
  split <;> simp

/-- C6: `in_range(target, start, end)` is true iff `start < target ≤ end`
when `start ≤ end`, and iff `target > start` or `target ≤ end` when the
interval wraps (`start > end`). -/
theorem in_range_characterization (target start e : Nat) :
    Node.in_range target start e = true ↔
      (if start ≤ e then start < target ∧ target ≤ e
       else start < target ∨ target ≤ e) :=
  in_range_iff target start e

/-- C10: the degenerate circular interval whose start equals its end is
empty: `in_range(target, x, x)` is false for every target. -/
theorem in_range_degenerate_empty (x target : Nat) :
    Node.in_range target x x = false := by
  by_contra hc
  rw [Bool.not_eq_false] at hc
  have h := (in_range_iff target x x).mp hc
  simp at h
  omega

/-- C5 (amended): for `start ≠ end`, `in_range(end, start, end)` is true and
`in_range(start, start, end)` is false, identically in the wrap and non-wrap
cases; when `start = end` both calls coincide and return false. -/
theorem in_range_boundary (start e : Nat) (h : start ≠ e) :
    Node.in_range e start e = true ∧ Node.in_range start start e = false := by
  constructor
  · rw [in_range_iff]
    split <;> omega
  · by_contra hc
    rw [Bool.not_eq_false] at hc
    have h2 := (in_range_iff start start e).mp hc
    split at h2 <;> omega

/-- C5 counterexample: at `start = end = 0` the claimed boundary law fails,
since `in_range(end, start, end)` evaluates to false, not true. -/
theorem in_range_boundary_counterexample : Node.in_range 0 0 0 = false := by
  decide

/-- C5 witness: the boundary law at the concrete pair `start = 0`, `end = 1`. -/
theorem in_range_boundary_witness :
    Node.in_range 1 0 1 = true ∧ Node.in_range 0 0 1 = false :=
  in_range_boundary 0 1 (by decide)

/-- C3: `find_node` on an empty ring surfaces Python's `ZeroDivisionError`
from `% len(self.nodes)` — an arithmetic artifact, not the specified
`EmptyRing` error (it does fail rather than return a node). -/
theorem find_node_empty_zero_division (w : World) (h : Nat) :
    ChordRing.find_node w [] h = .error .zeroDivisionError ∧
      PyError.zeroDivisionError ≠ PyError.emptyRing :=
  ⟨rfl, by decide⟩

/-- C4: on a freshly constructed node (empty `finger_table` dict) the lookup
raises Python's ambiguous `KeyError`, and a finger level stored as `None` is
silently skipped so the scan falls through to `self` — in neither case is the
specified `IncompleteFingerTable` error raised. -/
theorem closest_preceding_node_unpopulated :
    (∀ key, Node.closest_preceding_node wFresh 0 key = .error .keyError) ∧
      (∀ key, Node.closest_preceding_node wNoneFingers 0 key = .ok 0) :=
  ⟨fun _ => rfl, fun _ => rfl⟩

set_option maxRecDepth 10000 in
/-- C2: on the singleton ring `wSelfLoop` with key 7 absent from the node's
data, `closest_preceding_node` returns the node itself, and `find_successor`
recurses on the same node with unchanged arguments, so it never produces a
result no matter how much fuel it is given: the self-return is not a terminal
case and the recursion does not terminate. -/
theorem find_successor_nonterminating :
    Node.closest_preceding_node wSelfLoop 0 7 = .ok 0 ∧
      ∀ fuel, Node.find_successor_fuel wSelfLoop fuel 0 7 = none := by
  refine ⟨rfl, ?_⟩
  intro fuel
  induction fuel with
  | zero => rfl
  | succ n ih =>
    have hstep : Node.find_successor_fuel wSelfLoop (n + 1) 0 7
        = Node.find_successor_fuel wSelfLoop n 0 7 := rfl
    rw [hstep, ih]

/-- Soundness of the finger scan: with levels `1..i` all populated with node
objects, the loop yields either `self` or a finger inside the circular
interval `(self.identifier, key]`. -/
theorem cpnLoop_sound (w : World) (self key : Nat) :
    ∀ i, (∀ j, 1 ≤ j → j ≤ i → ∃ r, (w self).finger_table j = Slot.node r) →
      ∃ res, Node.cpnLoop w self key i = .ok res ∧
        (res = self ∨
          Node.in_range (w res).identifier (w self).identifier key = true) := by
  intro i
  induction i with
  | zero => exact fun _ => ⟨self, rfl, Or.inl rfl⟩
  | succ i ih =>
    intro hpop
    obtain ⟨r, hr⟩ := hpop (i + 1) (by omega) (by omega)
    have hunfold : Node.cpnLoop w self key (i + 1)
        = if Node.in_range (w r).identifier (w self).identifier key then Except.ok r
          else Node.cpnLoop w self key i := by
      rw [Node.cpnLoop, hr]
    by_cases hin : Node.in_range (w r).identifier (w self).identifier key = true
    · exact ⟨r, by rw [hunfold, if_pos hin], Or.inr hin⟩
    · rw [Bool.not_eq_true] at hin
      rw [hunfold, if_neg (by simp [hin])]
      exact ih fun j h1 _ => hpop j h1 (by omega)

/-- C7: with all 160 finger levels populated, `closest_preceding_node`
returns either a finger whose identifier lies in the circular interval
`(self.identifier, key]`, or the node itself. -/
theorem closest_preceding_node_sound (w : World) (self key : Nat)
    (hpop : ∀ j, 1 ≤ j → j ≤ 160 → ∃ r, (w self).finger_table j = Slot.node r) :
    ∃ res, Node.closest_preceding_node w self key = .ok res ∧
      (res = self ∨
        Node.in_range (w res).identifier (w self).identifier key = true) :=
  cpnLoop_sound w self key 160 hpop

/-- C7 witness: on the singleton self-looped world no finger qualifies for
key 7, and the scan returns the node itself. -/
theorem closest_preceding_node_sound_witness :
    ∃ res, Node.closest_preceding_node wSelfLoop 0 7 = .ok res ∧
      (res = 0 ∨
        Node.in_range (wSelfLoop res).identifier (wSelfLoop 0).identifier 7 = true) :=
  closest_preceding_node_sound wSelfLoop 0 7 (fun _ _ _ => ⟨0, rfl⟩)

/-- Every single `add_node` call leaves the membership list sorted by
identifier, since it ends in a sort by the identifier key. -/
theorem add_node_sorted (w : World) (nodes : List Nat) (n : Nat) :
    (ChordRing.add_node w nodes n).Pairwise (ChordRing.identLe w) :=
  @List.sorted_insertionSort Nat (ChordRing.identLe w) _
    ⟨fun _ _ => Nat.le_total _ _⟩ ⟨fun _ _ _ => Nat.le_trans⟩ (nodes ++ [n])

/-- Folding `add_node` over any suffix of calls preserves sortedness. -/
theorem add_nodes_sorted_of_sorted (w : World) :
    ∀ (ns start : List Nat), start.Pairwise (ChordRing.identLe w) →
      (ChordRing.add_nodes w start ns).Pairwise (ChordRing.identLe w)
  | [], _, h => h
  | n :: ns, start, _ =>
    add_nodes_sorted_of_sorted w ns (ChordRing.add_node w start n)
      (add_node_sorted w start n)

/-- C8 (amended): after every sequence of `add_node` calls starting from the
empty ring, the membership list is sorted by identifier in ascending order;
duplicate identifiers are, however, retained, not deduplicated. -/
theorem add_nodes_sorted (w : World) (ns : List Nat) :
    (ChordRing.add_nodes w [] ns).Pairwise (ChordRing.identLe w) :=
  add_nodes_sorted_of_sorted w ns [] List.Pairwise.nil

/-- C8 counterexample: adding two distinct node objects that share identifier
5 (references 0 and 1 in `wFresh`) leaves both in the membership list, so the
list is not deduplicated by identifier. -/
theorem add_nodes_not_deduplicated :
    ¬ (ChordRing.add_nodes wFresh [] [0, 1]).Pairwise
        (fun a b => (wFresh a).identifier ≠ (wFresh b).identifier) := by
  have he : ChordRing.add_nodes wFresh [] [0, 1] = [0, 1] := rfl
  rw [he]
  intro hp
  exact (List.pairwise_cons.mp hp).1 1 (by simp) rfl

/-- C9: `find_node` (including the hashing step) is deterministic: two calls
with the same digest function, heap, membership list and key agree. -/
theorem find_node_deterministic (sha1 : String → Nat) (w : World) (nodes : List Nat)
    (key : String) (r1 r2 : Nat)
    (h1 : ChordRing.find_node_key sha1 w nodes key = .ok r1)
    (h2 : ChordRing.find_node_key sha1 w nodes key = .ok r2) : r1 = r2 :=
  Except.ok.inj (h1.symm.trans h2)

/-- Concrete evaluation: on membership 10/60/180 a key hashing to 70 resolves
to the node with identifier 180 (reference 2), the scenario from the spec. -/
theorem find_node_wABC_eval : ChordRing.find_node wABC [0, 1, 2] 70 = .ok 2 := by
  have hmap : ([0, 1, 2].map fun n => (wABC n).identifier) = [10, 60, 180] := by
    simp [wABC]
  have hb : bisect_left [10, 60, 180] 70 = 2 := by
    simp [bisect_left, bisect_left_loop]
  unfold ChordRing.find_node
  rw [if_neg (by simp), hmap, hb]
  rfl

/-- C9 witness: the two hypotheses discharged at the concrete scenario world,
with a digest function sending every key to 70. -/
theorem find_node_deterministic_witness : (2 : Nat) = 2 :=
  find_node_deterministic (fun _ => 70) wABC [0, 1, 2] "key1" 2 2
    find_node_wABC_eval find_node_wABC_eval

/-- Elements of a `≤`-sorted list are monotone in the index. -/
theorem getD_mono_of_pairwise (a : List Nat) (hsort : a.Pairwise (· ≤ ·))
    {i j : Nat} (hij : i ≤ j) (hj : j < a.length) : a.getD i 0 ≤ a.getD j 0 := by
  rcases Nat.eq_or_lt_of_le hij with rfl | hlt
  · exact Nat.le_refl _
  · rw [List.getD_eq_getElem a 0 (by omega), List.getD_eq_getElem a 0 hj]
    exact List.pairwise_iff_getElem.mp hsort i j (by omega) hj hlt

/-- The bisection loop narrows its bracket to the partition point of a sorted
list: every element left of the result is `< x`, every element from the
result on is `≥ x`, and the result stays inside the initial bracket. -/
theorem bisect_left_loop_bracket (a : List Nat) (x : Nat) (hsort : a.Pairwise (· ≤ ·))
    (lo hi : Nat) (hhi : hi ≤ a.length) (hlohi : lo ≤ hi)
    (hbelow : ∀ i, i < lo → a.getD i 0 < x)
    (habove : ∀ i, hi ≤ i → i < a.length → x ≤ a.getD i 0) :
    (∀ i, i < bisect_left_loop a x lo hi → a.getD i 0 < x) ∧
      (∀ i, bisect_left_loop a x lo hi ≤ i → i < a.length → x ≤ a.getD i 0) ∧
      lo ≤ bisect_left_loop a x lo hi ∧ bisect_left_loop a x lo hi ≤ hi := by
  by_cases h : lo < hi
  · have hunfold : bisect_left_loop a x lo hi
        = if a.getD ((lo + hi) / 2) 0 < x then bisect_left_loop a x ((lo + hi) / 2 + 1) hi
          else bisect_left_loop a x lo ((lo + hi) / 2) := by
      rw [bisect_left_loop]
      simp [h]
    by_cases hprobe : a.getD ((lo + hi) / 2) 0 < x
    · rw [hunfold, if_pos hprobe]
      obtain ⟨h1, h2, _, h4⟩ := bisect_left_loop_bracket a x hsort ((lo + hi) / 2 + 1) hi
        hhi (by omega)
        (fun i hi2 =>
          Nat.lt_of_le_of_lt (getD_mono_of_pairwise a hsort (by omega) (by omega)) hprobe)
        habove
      exact ⟨h1, h2, by omega, h4⟩
    · rw [hunfold, if_neg hprobe]
      obtain ⟨h1, h2, h3, _⟩ := bisect_left_loop_bracket a x hsort lo ((lo + hi) / 2)
        (by omega) (by omega) hbelow
        (fun i hi2 hi3 =>
          Nat.le_trans (by omega) (getD_mono_of_pairwise a hsort hi2 hi3))
      exact ⟨h1, h2, h3, by omega⟩
  · have heq : bisect_left_loop a x lo hi = lo := by
      rw [bisect_left_loop]
      simp [h]
    rw [heq]
    exact ⟨hbelow, fun i h1 h2 => habove i (by omega) h2, Nat.le_refl _, by omega⟩
termination_by hi - lo
decreasing_by
  all_goals omega

/-- `bisect_left` on a sorted list returns the partition point of `x`. -/
theorem bisect_left_partition (a : List Nat) (x : Nat) (hsort : a.Pairwise (· ≤ ·)) :
    (∀ i, i < bisect_left a x → a.getD i 0 < x) ∧
      (∀ i, bisect_left a x ≤ i → i < a.length → x ≤ a.getD i 0) ∧
      bisect_left a x ≤ a.length := by
  obtain ⟨h1, h2, _, h4⟩ := bisect_left_loop_bracket a x hsort 0 a.length
    (Nat.le_refl _) (Nat.zero_le _)
    (fun i hi2 => absurd hi2 (Nat.not_lt_zero i)) (fun i h1 h2 => absurd h2 (by omega))
  exact ⟨h1, h2, h4⟩

/-- C1: on a non-empty membership list sorted by identifier (the state that
`add_node` maintains), `find_node` succeeds and returns a member whose
identifier is the smallest member identifier `≥` the hashed key, wrapping to
the member with the smallest identifier overall when the hashed key exceeds
every member identifier. -/
theorem find_node_successor (sha1 : String → Nat) (w : World) (nodes : List Nat)
    (key : String) (hne : nodes ≠ [])
    (hsort : nodes.Pairwise (ChordRing.identLe w)) :
    ∃ r, ChordRing.find_node_key sha1 w nodes key = .ok r ∧ r ∈ nodes ∧
      (∀ n ∈ nodes, ChordRing.hash_key sha1 key ≤ (w n).identifier →
        (w r).identifier ≤ (w n).identifier) ∧
      ((∃ n ∈ nodes, ChordRing.hash_key sha1 key ≤ (w n).identifier) →
        ChordRing.hash_key sha1 key ≤ (w r).identifier) ∧
      ((∀ n ∈ nodes, (w n).identifier < ChordRing.hash_key sha1 key) →
        ∀ n ∈ nodes, (w r).identifier ≤ (w n).identifier) := by
  set x := ChordRing.hash_key sha1 key with hx
  set ids := nodes.map (fun n => (w n).identifier) with hids
  have hlen : ids.length = nodes.length := List.length_map ..
  have hlenpos : 0 < nodes.length := List.length_pos.mpr hne
  have hsortids : ids.Pairwise (· ≤ ·) := List.pairwise_map.mpr hsort
  obtain ⟨hbelow, habove, hble⟩ := bisect_left_partition ids x hsortids
  set b := bisect_left ids x with hb
  have hidgetD : ∀ j, j < nodes.length → ids.getD j 0 = (w (nodes.getD j 0)).identifier := by
    intro j hj
    rw [List.getD_eq_getElem ids 0 (by omega), List.getD_eq_getElem nodes 0 hj]
    exact List.getElem_map ..
  have heval : ChordRing.find_node_key sha1 w nodes key
      = .ok (nodes.getD (b % nodes.length) 0) := by
    unfold ChordRing.find_node_key ChordRing.find_node
    rw [if_neg (by omega)]
  by_cases hcase : b < nodes.length
  · have hmod : b % nodes.length = b := Nat.mod_eq_of_lt hcase
    refine ⟨nodes.getD b 0, by rw [heval, hmod], ?_, ?_, ?_, ?_⟩
    · rw [List.getD_eq_getElem nodes 0 hcase]
      exact List.getElem_mem _
    · intro n hn hxn
      obtain ⟨j, hj, hjn⟩ := List.mem_iff_getElem.mp hn
      have hjb : b ≤ j := by
        by_contra hjb
        push_neg at hjb
        have hlt := hbelow j hjb
        rw [hidgetD j hj, List.getD_eq_getElem nodes 0 hj, hjn] at hlt
        omega
      have hmono := getD_mono_of_pairwise ids hsortids hjb (by omega)
      rw [hidgetD b hcase, hidgetD j hj, List.getD_eq_getElem nodes 0 hj, hjn] at hmono
      exact hmono
    · intro _
      have hq := habove b (Nat.le_refl _) (by omega)
      rw [hidgetD b hcase] at hq
      exact hq
    · intro hall
      have hq := habove b (Nat.le_refl _) (by omega)
      rw [hidgetD b hcase] at hq
      have hmem : nodes.getD b 0 ∈ nodes := by
        rw [List.getD_eq_getElem nodes 0 hcase]
        exact List.getElem_mem _
      have := hall _ hmem
      omega
  · have hmod : b % nodes.length = 0 := by
      have : b = nodes.length := by omega
      rw [this]
      exact Nat.mod_self _
    refine ⟨nodes.getD 0 0, by rw [heval, hmod], ?_, ?_, ?_, ?_⟩
    · rw [List.getD_eq_getElem nodes 0 hlenpos]
      exact List.getElem_mem _
    · intro n hn _
      obtain ⟨j, hj, hjn⟩ := List.mem_iff_getElem.mp hn
      have hmono := getD_mono_of_pairwise ids hsortids (Nat.zero_le j) (by omega)
      rw [hidgetD 0 hlenpos, hidgetD j hj, List.getD_eq_getElem nodes 0 hj, hjn] at hmono
      exact hmono
    · rintro ⟨n, hn, hxn⟩
      obtain ⟨j, hj, hjn⟩ := List.mem_iff_getElem.mp hn
      have hlt := hbelow j (by omega)
      rw [hidgetD j hj, List.getD_eq_getElem nodes 0 hj, hjn] at hlt
      omega
    · intro _ n hn
      obtain ⟨j, hj, hjn⟩ := List.mem_iff_getElem.mp hn
      have hmono := getD_mono_of_pairwise ids hsortids (Nat.zero_le j) (by omega)
      rw [hidgetD 0 hlenpos, hidgetD j hj, List.getD_eq_getElem nodes 0 hj, hjn] at hmono
      exact hmono

/-- C1 witness: the spec's scenario membership 10/60/180 with a key hashing
to 70; the hypotheses are discharged by evaluation. -/
theorem find_node_successor_witness :
    ∃ r, ChordRing.find_node_key (fun _ => 70) wABC [0, 1, 2] "key1" = .ok r ∧
      r ∈ [0, 1, 2] ∧
      (∀ n ∈ [0, 1, 2], ChordRing.hash_key (fun _ => 70) "key1" ≤ (wABC n).identifier →
        (wABC r).identifier ≤ (wABC n).identifier) ∧
      ((∃ n ∈ [0, 1, 2], ChordRing.hash_key (fun _ => 70) "key1" ≤ (wABC n).identifier) →
        ChordRing.hash_key (fun _ => 70) "key1" ≤ (wABC r).identifier) ∧
      ((∀ n ∈ [0, 1, 2], (wABC n).identifier < ChordRing.hash_key (fun _ => 70) "key1") →
        ∀ n ∈ [0, 1, 2], (wABC r).identifier ≤ (wABC n).identifier) :=
  find_node_successor (fun _ => 70) wABC [0, 1, 2] "key1" (by decide) (by decide)

end DTH
